import Mathlib

/-!
Verification development for the applecast-cli extraction pipeline
(src/main.rs).  The Rust functions are shallowly embedded as Lean
definitions; external collaborators (the HTTP transport, the filesystem,
the scraper HTML parser, the serde_json parser and the url crate parser)
are modelled as explicit inputs or, where the specification describes
them, by definitions marked `Modelled from the spec`.
-/

/-- JSON values as produced by serde_json.  Objects are association lists
in their iteration order (serde keys are unique). -/
inductive Json where
  | null : Json
  | bool (b : Bool) : Json
  | num (n : Int) : Json
  | str (s : String) : Json
  | arr (elems : List Json) : Json
  | obj (kvs : List (String × Json)) : Json

/-- Model of serde_json Value square-bracket indexing on a shared
reference: returns Null when the key is missing or the value is not an
object. -/
def Json.index (j : Json) (key : String) : Json :=
  match j with
  | .obj kvs => (kvs.lookup key).getD Json.null
  | _ => Json.null

/-- Model of serde_json Value::get with a string key: some value for a
present key of an object, none otherwise. -/
def Json.get (j : Json) (key : String) : Option Json :=
  match j with
  | .obj kvs => kvs.lookup key
  | _ => none

/-- Model of serde_json Value::as_str. -/
def Json.asStr : Json → Option String
  | .str s => some s
  | _ => none

/-- The closedCaptions check performed at every object node of the
recursive search in find_closed_captions_url (src/main.rs lines 366-373):
look up "closedCaptions", then "url" inside it, and keep it only when it
is a string. -/
def objHit (kvs : List (String × Json)) : Option String :=
  match kvs.lookup "closedCaptions" with
  | some cc =>
    match cc.get "url" with
    | some url => url.asStr
    | none => none
  | none => none

mutual
/-- Model of the recursive helper find_closed_captions_url
(src/main.rs lines 363-393): depth-first search over a JSON value,
checking each object node for closedCaptions.url and otherwise recursing
into object values and array elements in order, first match wins. -/
def find_closed_captions_url : Json → Option String
  | .obj kvs =>
    match objHit kvs with
    | some s => some s
    | none => findVals kvs
  | .arr elems => findElems elems
  | _ => none

/-- Recursion of find_closed_captions_url into the values of an object,
in iteration order (src/main.rs lines 375-379). -/
def findVals : List (String × Json) → Option String
  | [] => none
  | (_, v) :: rest =>
    match find_closed_captions_url v with
    | some s => some s
    | none => findVals rest

/-- Recursion of find_closed_captions_url into the elements of an array,
in order (src/main.rs lines 384-388). -/
def findElems : List Json → Option String
  | [] => none
  | v :: rest =>
    match find_closed_captions_url v with
    | some s => some s
    | none => findElems rest
end

example : find_closed_captions_url (Json.obj [("a", Json.null),
    ("b", Json.obj [("closedCaptions", Json.obj [("url", Json.str "x")])])]) = some "x" := by
  decide

/-- Helper of the tag-removal loop in clean_text (src/main.rs lines
312-318): drop characters through the first closing angle bracket,
returning none when there is none (the Rust find fails and the loop
breaks). -/
def dropToGt : List Char → Option (List Char)
  | [] => none
  | c :: cs => if c = '>' then some cs else dropToGt cs

/-- Model of the tag-removal loop of clean_text (src/main.rs lines
312-318): repeatedly locate the next opening angle bracket, delete
through the matching closing one, and stop (leaving the remainder
untouched) when an opening bracket has no closing one after it. -/
def removeTags : List Char → List Char
  | [] => []
  | c :: cs =>
    if c = '<' then
      match hdrop : dropToGt cs with
      | some rest => removeTags rest
      | none => c :: cs
    else c :: removeTags cs
termination_by cs => cs.length
decreasing_by
  · have key : ∀ (l rest : List Char), dropToGt l = some rest → rest.length < l.length := by
      intro l
      induction l with
      | nil => intro rest h; simp [dropToGt] at h
      | cons a as ih =>
        intro rest h
        by_cases ha : a = '>'
        · simp only [dropToGt, if_pos ha, Option.some.injEq] at h
          subst h
          simp
        · simp only [dropToGt, if_neg ha] at h
          exact Nat.lt_trans (ih rest h) (Nat.lt_succ_self _)
    have := key _ _ (by assumption)
    simp
    omega
  · simp

/-- Model of Rust str::split_whitespace (src/main.rs line 321): the
maximal whitespace-free words of the text, in order.  Char.isWhitespace
stands in for the Rust whitespace class. -/
def words : List Char → List (List Char)
  | [] => []
  | c :: cs =>
    if c.isWhitespace then words cs
    else
      match cs with
      | [] => [[c]]
      | d :: _ =>
        if d.isWhitespace then [c] :: words cs
        else
          match words cs with
          | [] => [[c]]
          | w :: ws => (c :: w) :: ws

/-- Model of joining a vector of words with a single space (src/main.rs
line 321). -/
def joinWords : List (List Char) → List Char
  | [] => []
  | [w] => w
  | w :: v :: ws => w ++ ' ' :: joinWords (v :: ws)

/-- The character-level body of clean_text (src/main.rs lines 307-322):
remove tags, then re-tokenize on whitespace and rejoin with single
spaces. -/
def cleanTextData (cs : List Char) : List Char :=
  joinWords (words (removeTags cs))

/-- Model of clean_text (src/main.rs lines 307-322). -/
def clean_text (text : String) : String :=
  String.mk (cleanTextData text.data)

example : words "a  b".data = [['a'], ['b']] := by decide
example : joinWords [['a'], ['b']] = ['a', ' ', 'b'] := by decide

/-- Model of Rust str::trim on characters: drop whitespace from both
ends. -/
def trimChars (cs : List Char) : List Char :=
  ((cs.dropWhile Char.isWhitespace).reverse.dropWhile Char.isWhitespace).reverse

/-- Model of Rust str::trim. -/
def trimStr (s : String) : String := String.mk (trimChars s.data)

/-- The episode metadata record (src/main.rs lines 12-18). -/
structure Metadata where
  episode_title : String
  description : String
  show_title : String
  publish_date : String
deriving DecidableEq, Repr

/-- The all-empty metadata value the fallback scan starts from
(src/main.rs lines 198-201). -/
def emptyMetadata : Metadata := ⟨"", "", "", ""⟩

/-- One meta element of the parsed document, as the fallback extractor
sees it: its property, name, itemprop and content attributes, each
possibly absent (src/main.rs lines 203-279). -/
structure MetaElem where
  property : Option String
  name : Option String
  itemprop : Option String
  content : Option String
deriving DecidableEq, Repr

/-- The parsed page, at the granularity the two extractors query it: the
text of the first script element with id schema:episode, when one
exists, and every meta element in document order.  The scraper HTML
parser itself is an external collaborator and never fails. -/
structure Document where
  schemaEpisodeText : Option String
  metas : List MetaElem

/-- The per-element step of the fallback scan (src/main.rs lines
203-280): exactly one attribute family is consulted (property, else
name, else itemprop), a dispatch on its value picks the target field,
and the field is written only when still empty, always through
clean_text. -/
def scanMeta (st : Metadata) (e : MetaElem) : Metadata :=
  match e.property with
  | some property =>
    if property = "og:title" then
      if st.episode_title = "" then
        match e.content with
        | some content => { st with episode_title := clean_text content }
        | none => st
      else st
    else if property = "og:description" then
      if st.description = "" then
        match e.content with
        | some content => { st with description := clean_text content }
        | none => st
      else st
    else if property = "og:site_name" then
      if st.show_title = "" then
        match e.content with
        | some content => { st with show_title := clean_text content }
        | none => st
      else st
    else st
  | none =>
  match e.name with
  | some name =>
    if name = "apple:title" then
      match e.content with
      | some content =>
        if st.episode_title = "" then { st with episode_title := clean_text content } else st
      | none => st
    else if name = "description" || name = "apple:description" then
      match e.content with
      | some content =>
        if st.description = "" then { st with description := clean_text content } else st
      | none => st
    else st
  | none =>
  match e.itemprop with
  | some itemprop =>
    if itemprop = "name" || itemprop = "headline" then
      match e.content with
      | some content =>
        if st.episode_title = "" then { st with episode_title := clean_text content } else st
      | none => st
    else if itemprop = "description" then
      match e.content with
      | some content =>
        if st.description = "" then { st with description := clean_text content } else st
      | none => st
    else if itemprop = "publisher" then
      match e.content with
      | some content =>
        if st.show_title = "" then { st with show_title := clean_text content } else st
      | none => st
    else if itemprop = "datePublished" then
      match e.content with
      | some content =>
        if st.publish_date = "" then { st with publish_date := clean_text content } else st
      | none => st
    else st
  | none => st

/-- Whether pat occurs at the very start of s. -/
def leadsWith : List Char → List Char → Bool
  | [], _ => true
  | _ :: _, [] => false
  | p :: ps, c :: cs => p = c && leadsWith ps cs

/-- Split s at the first occurrence of pat: the part before the
occurrence and the part after it; none when pat never occurs. -/
def splitAtSub (pat : List Char) : List Char → Option (List Char × List Char)
  | [] => if pat = [] then some ([], []) else none
  | c :: cs =>
    if leadsWith pat (c :: cs) then some ([], (c :: cs).drop pat.length)
    else
      match splitAtSub pat cs with
      | some (pre, rest) => some (c :: pre, rest)
      | none => none

/-- The literal delimiter of the show-title recovery split
(src/main.rs line 290). -/
def delimChars : List Char := " · ".data

/-- Model of Rust str::split with the fixed nonempty literal delimiter:
the pieces between consecutive occurrences, in order. -/
def splitOnDelim (cs : List Char) : List (List Char) :=
  match hsplit : splitAtSub delimChars cs with
  | some (pre, rest) => pre :: splitOnDelim rest
  | none => [cs]
termination_by cs.length
decreasing_by
  · have lw : ∀ (pat l : List Char), leadsWith pat l = true → pat.length ≤ l.length := by
      intro pat
      induction pat with
      | nil => intro l _; simp
      | cons p ps ih =>
        intro l h
        cases l with
        | nil => simp [leadsWith] at h
        | cons c cs =>
          simp only [leadsWith, Bool.and_eq_true] at h
          have := ih cs h.2
          simp only [List.length_cons]
          omega
    have key : ∀ (pat l p r : List Char), splitAtSub pat l = some (p, r) →
        r.length + pat.length ≤ l.length := by
      intro pat l
      induction l with
      | nil =>
        intro p r h
        by_cases hp : pat = []
        · subst hp
          simp [splitAtSub] at h
          simp [h.2.symm]
        · simp [splitAtSub, hp] at h
      | cons c cs ih =>
        intro p r h
        by_cases hl : leadsWith pat (c :: cs) = true
        · simp only [splitAtSub, if_pos hl, Option.some.injEq, Prod.mk.injEq] at h
          obtain ⟨hp, hr⟩ := h
          have hlen := lw pat (c :: cs) hl
          subst hr
          simp only [List.length_drop]
          omega
        · simp only [splitAtSub, if_neg hl] at h
          cases hsub : splitAtSub pat cs with
          | none => rw [hsub] at h; cases h
          | some pr =>
            rcases pr with ⟨p0, r0⟩
            rw [hsub] at h
            simp only [Option.some.injEq, Prod.mk.injEq] at h
            obtain ⟨hp, hr⟩ := h
            subst hr
            have := ih p0 r0 hsub
            simp only [List.length_cons]
            omega
    have := key delimChars _ _ _ (by assumption)
    have hd : delimChars.length = 3 := by decide
    omega

/-- Model of extract_from_meta_tags (src/main.rs lines 194-304): fold the
scan over every meta element in document order, then, when show_title is
still empty, re-scan for the first og:description element and take the
second part of its content split on the literal delimiter.  The meta
selector literal always parses, so the Rust error branch is dead and the
function always returns Ok. -/
def extract_from_meta_tags (document : Document) : Except String Metadata :=
  let scanned := document.metas.foldl scanMeta emptyMetadata
  let show_title :=
    if scanned.show_title = "" then
      match document.metas.find? (fun e => e.property == some "og:description") with
      | some element =>
        match element.content with
        | some content =>
          let parts := splitOnDelim content.data
          if parts.length ≥ 2 then String.mk (trimChars (parts.getD 1 []))
          else scanned.show_title
        | none => scanned.show_title
      | none => scanned.show_title
    else scanned.show_title
  Except.ok { scanned with show_title := show_title }

/-- Model of extract_from_json_ld (src/main.rs lines 152-191): fail when
the schema:episode script is absent or when its text does not parse as
JSON (the serde_json parser is an external collaborator, passed in as
parseJson), and otherwise project the four fields by fixed key paths,
trimming each and defaulting a missing key to the empty string. -/
def extract_from_json_ld (parseJson : String → Option Json)
    (document : Document) : Except String Metadata :=
  match document.schemaEpisodeText with
  | none => Except.error "JSON-LD schema not found"
  | some json_text =>
    match parseJson json_text with
    | none => Except.error "Failed to parse JSON-LD"
    | some json_value =>
      Except.ok
        { episode_title := trimStr ((json_value.index "name").asStr.getD "")
          description := trimStr ((json_value.index "description").asStr.getD "")
          show_title := trimStr (((json_value.index "partOfSeries").index "name").asStr.getD "")
          publish_date := trimStr ((json_value.index "datePublished").asStr.getD "") }

/-- Model of extract_metadata (src/main.rs lines 136-149): try the
JSON-LD extractor and return its value wholesale when it succeeds,
otherwise run the meta-tag fallback. -/
def extract_metadata (parseJson : String → Option Json)
    (document : Document) : Except String Metadata :=
  match extract_from_json_ld parseJson document with
  | Except.ok metadata => Except.ok metadata
  | Except.error _ => extract_from_meta_tags document

/-- Characters allowed in a URL scheme after its leading letter. -/
def isSchemeChar (c : Char) : Bool :=
  c.isAlphanum || c = '+' || c = '-' || c = '.'

/-- Characters that terminate the host portion of a URL. -/
def hostDelim (c : Char) : Bool :=
  c = '/' || c = '?' || c = '#'

/-- Split a character list at its first colon, returning the part before
and the part after; none when there is no colon. -/
def splitScheme : List Char → Option (List Char × List Char)
  | [] => none
  | c :: cs =>
    if c = ':' then some ([], cs)
    else
      match splitScheme cs with
      | some (sch, rest) => some (c :: sch, rest)
      | none => none

/-- Modelled from the spec: the parser of the external url crate used by
validate_url (src/main.rs line 90), which the specification describes as
a syntactic scheme-plus-structure check that accepts http and https
absolute URLs and rejects the empty string and strings lacking a
scheme/host.  A string parses when it has the shape
scheme://host-and-rest with a well-formed nonempty scheme and a nonempty
host. -/
def url_parse_ok (s : String) : Bool :=
  match splitScheme s.data with
  | some (sch, rest) =>
    (match sch with
     | c :: _ => c.isAlpha
     | [] => false)
    && sch.all isSchemeChar
    && (match rest with
        | '/' :: '/' :: hostRest =>
          !(hostRest.takeWhile (fun c => !hostDelim c)).isEmpty
        | _ => false)
  | none => false

/-- Model of validate_url (src/main.rs lines 89-93): map a parse success
to unit and a parse failure to a message that embeds the offending
string. -/
def validate_url (url_str : String) : Except String Unit :=
  if url_parse_ok url_str then Except.ok ()
  else Except.error ("Invalid URL format: \x27" ++ url_str ++ "\x27")

/-- The well-formed http or https absolute URLs of the specification:
an http or https scheme, the literal separator, a nonempty host of
alphanumeric, dot or hyphen characters, then anything. -/
def wellFormedHttpUrl (s : String) : Prop :=
  ∃ (scheme : String) (host rest : List Char),
    (scheme = "http" ∨ scheme = "https") ∧
    s.data = scheme.data ++ ':' :: '/' :: '/' :: (host ++ rest) ∧
    host ≠ [] ∧
    host.all (fun c => c.isAlphanum || c = '.' || c = '-') = true

example : url_parse_ok "https://podcasts.apple.com/us/podcast/id840986946?i=1000631244436" = true := by decide
example : url_parse_ok "http://example.com" = true := by decide
example : url_parse_ok "not-a-valid-url" = false := by decide
example : url_parse_ok "" = false := by decide

/-- The opening tag matched literally by the transcript regex
(src/main.rs lines 347-349). -/
def serverDataOpen : List Char :=
  "<script type=\"application/json\" id=\"serialized-server-data\">".data

/-- The closing tag matched literally by the transcript regex
(src/main.rs lines 347-349). -/
def serverDataClose : List Char := "</script>".data

/-- Model of the capture of the transcript regex (src/main.rs lines
347-352): the regex engine scans for the leftmost position carrying the
literal opening tag followed, in non-greedy dot-matches-anything-but-
newline fashion, by the literal closing tag; the capture is the text
between them.  At a candidate opening tag this succeeds exactly when the
closing tag occurs before the next newline, and otherwise the scan
resumes one character further right. -/
def re_captures : List Char → Option (List Char)
  | [] => none
  | c :: cs =>
    if leadsWith serverDataOpen (c :: cs) then
      let tail := (c :: cs).drop serverDataOpen.length
      let line := tail.takeWhile (fun ch => ch ≠ '\n')
      match splitAtSub serverDataClose line with
      | some (cap, _) => some cap
      | none => re_captures cs
    else re_captures cs

/-- Model of find_transcript_url (src/main.rs lines 342-396): no regex
match or an unparseable capture yield Ok none, and a parsed capture is
handed to the recursive closedCaptions search.  The serde_json parser is
the external parseJson collaborator and the page text is given directly
(the file read is transport-level io). -/
def find_transcript_url (parseJson : List Char → Option Json)
    (html_content : List Char) : Except String (Option String) :=
  match re_captures html_content with
  | none => Except.ok none
  | some json_text =>
    match parseJson json_text with
    | none => Except.ok none
    | some json_value => Except.ok (find_closed_captions_url json_value)

/-- Model of the control flow of main (src/main.rs lines 30-86) over the
outcomes of its steps: URL validation, page fetch, metadata extraction
and metadata save each exit with code 1 on failure, while every outcome
of the transcript search and download only prints and the process ends
with code 0. -/
def main_run (validate_res : Except String Unit) (fetch_res : Except String Unit)
    (extract_res : Except String Metadata) (save_res : Except String Unit)
    (find_res : Except String (Option String))
    (download : String → Except String Unit) : Nat :=
  match validate_res with
  | Except.error _ => 1
  | Except.ok _ =>
    match fetch_res with
    | Except.error _ => 1
    | Except.ok _ =>
      match extract_res with
      | Except.error _ => 1
      | Except.ok _ =>
        match save_res with
        | Except.error _ => 1
        | Except.ok _ =>
          match find_res with
          | Except.ok (some transcript_url) =>
            match download transcript_url with
            | Except.ok _ => 0
            | Except.error _ => 0
          | Except.ok none => 0
          | Except.error _ => 0

/-- First non-none result of a list of search outcomes, used to phrase
the first-match-wins traversal order. -/
def firstSome : List (Option String) → Option String
  | [] => none
  | o :: os =>
    match o with
    | some s => some s
    | none => firstSome os

/-- Whether a character is an angle bracket; the tag-removal behaviour
of clean_text depends only on the subsequence of these characters. -/
def isAngle (c : Char) : Bool := c = '<' || c = '>'

/-- Whether the tag-removal loop of clean_text would leave this text
unchanged: either no opening bracket occurs, or the first one has no
closing bracket after it. -/
def noRemovable : List Char → Bool
  | [] => true
  | c :: cs => if c = '<' then (dropToGt cs).isNone else noRemovable cs

/-- The sample serialized-server-data payload of the specification,
nesting closedCaptions.url under data/shelves/items/contextAction/
episodeOffer. -/
def sampleServerData : Json :=
  Json.arr [Json.obj [("data", Json.obj [("shelves", Json.arr [Json.obj
    [("items", Json.arr [Json.obj [("contextAction", Json.obj
      [("episodeOffer", Json.obj [("closedCaptions", Json.obj
        [("url", Json.str "https://example.com/transcript.ttml")])])])]])]])])]]

/-- The sample structured-data block of the specification. -/
def sampleJsonLd : Json :=
  Json.obj [("name", Json.str "Test Episode Title"),
            ("description", Json.str "Test episode description"),
            ("datePublished", Json.str "2023-01-15"),
            ("partOfSeries", Json.obj [("name", Json.str "Test Podcast Show")])]

/-- The object-node hit condition in the words of the specification: the
object has a key closedCaptions whose value is itself an object with a
string-valued key url. -/
def specCaptionHit (kvs : List (String × Json)) (s : String) : Prop :=
  ∃ cckvs, kvs.lookup "closedCaptions" = some (Json.obj cckvs) ∧
    cckvs.lookup "url" = some (Json.str s)

/-- Claim C1: the metadata orchestrator is a strict two-tier fallback —
whenever the primary JSON-LD extractor returns a value it is returned
wholesale, and only when the primary extractor fails does the fallback
tag-scan run, whose result is exactly the fallback result, so fields of
the two strategies are never combined. -/
theorem orchestrator_two_tier (parseJson : String → Option Json) (document : Document) :
    (∀ m, extract_from_json_ld parseJson document = Except.ok m →
      extract_metadata parseJson document = Except.ok m) ∧
    (∀ msg, extract_from_json_ld parseJson document = Except.error msg →
      extract_metadata parseJson document = extract_from_meta_tags document) := by
  constructor
  · intro m h
    simp [extract_metadata, h]
  · intro msg h
    simp [extract_metadata, h]

theorem orchestrator_two_tier_witness :
    extract_from_json_ld (fun _ => none) (⟨none, []⟩ : Document) =
      Except.error "JSON-LD schema not found" ∧
    extract_metadata (fun _ => none) (⟨none, []⟩ : Document) =
      extract_from_meta_tags (⟨none, []⟩ : Document) :=
  ⟨rfl, (orchestrator_two_tier (fun _ => none) ⟨none, []⟩).2
    "JSON-LD schema not found" rfl⟩

/-- Claim C6: the primary extractor fails exactly when the schema script
is missing or its text is not valid JSON; on success each field is the
trimmed string at its fixed key path, a missing key giving the empty
string, and the sample structured-data block yields the sample
metadata. -/
theorem json_ld_extractor_contract (parseJson : String → Option Json) (document : Document) :
    (document.schemaEpisodeText = none →
      extract_from_json_ld parseJson document = Except.error "JSON-LD schema not found") ∧
    (∀ t, document.schemaEpisodeText = some t → parseJson t = none →
      extract_from_json_ld parseJson document = Except.error "Failed to parse JSON-LD") ∧
    (∀ t j, document.schemaEpisodeText = some t → parseJson t = some j →
      extract_from_json_ld parseJson document = Except.ok
        { episode_title := trimStr ((j.index "name").asStr.getD "")
          description := trimStr ((j.index "description").asStr.getD "")
          show_title := trimStr (((j.index "partOfSeries").index "name").asStr.getD "")
          publish_date := trimStr ((j.index "datePublished").asStr.getD "") }) ∧
    (∀ (kvs : List (String × Json)) (key : String), kvs.lookup key = none →
      ((Json.obj kvs).index key).asStr.getD "" = "") ∧
    (∀ t, document.schemaEpisodeText = some t → parseJson t = some sampleJsonLd →
      extract_from_json_ld parseJson document = Except.ok
        ⟨"Test Episode Title", "Test episode description",
         "Test Podcast Show", "2023-01-15"⟩) := by
  refine ⟨?_, ?_, ?_, ?_, ?_⟩
  · intro h
    simp [extract_from_json_ld, h]
  · intro t ht hp
    simp [extract_from_json_ld, ht, hp]
  · intro t j ht hp
    simp [extract_from_json_ld, ht, hp]
  · intro kvs key h
    simp [Json.index, h, Json.asStr]
  · intro t ht hp
    simp [extract_from_json_ld, ht, hp]
    decide

theorem json_ld_extractor_contract_witness :
    extract_from_json_ld (fun _ => some sampleJsonLd)
      (⟨some "sample", []⟩ : Document) =
      Except.ok ⟨"Test Episode Title", "Test episode description",
                 "Test Podcast Show", "2023-01-15"⟩ :=
  (json_ld_extractor_contract (fun _ => some sampleJsonLd) ⟨some "sample", []⟩).2.2.2.2
    "sample" rfl rfl

/-- Claim C9: transcript-path failures never fail the run — the locator
returns Ok none both when the regex finds no serialized-server-data
script and when the capture does not parse as JSON, and in main every
transcript outcome leaves the exit code at 0 once the earlier fatal
steps have succeeded. -/
theorem transcript_failures_nonfatal :
    (∀ (parseJson : List Char → Option Json) (html : List Char),
      re_captures html = none →
      find_transcript_url parseJson html = Except.ok none) ∧
    (∀ (parseJson : List Char → Option Json) (html cap : List Char),
      re_captures html = some cap → parseJson cap = none →
      find_transcript_url parseJson html = Except.ok none) ∧
    (∀ (m : Metadata) (find_res : Except String (Option String))
       (download : String → Except String Unit),
      main_run (Except.ok ()) (Except.ok ()) (Except.ok m) (Except.ok ())
        find_res download = 0) := by
  refine ⟨?_, ?_, ?_⟩
  · intro parseJson html h
    simp [find_transcript_url, h]
  · intro parseJson html cap h hp
    simp [find_transcript_url, h, hp]
  · intro m find_res download
    rcases find_res with e | o
    · simp [main_run]
    · rcases o with _ | u
      · simp [main_run]
      · rcases hdown : download u with _ | _ <;> simp [main_run, hdown]

theorem transcript_failures_nonfatal_witness :
    find_transcript_url (fun _ => none) [] = Except.ok none ∧
    find_transcript_url (fun _ => none) (serverDataOpen ++ ('x' :: serverDataClose)) =
      Except.ok none ∧
    main_run (Except.ok ()) (Except.ok ()) (Except.ok emptyMetadata) (Except.ok ())
      (Except.error "read failed") (fun _ => Except.ok ()) = 0 :=
  ⟨transcript_failures_nonfatal.1 (fun _ => none) [] (by decide),
   transcript_failures_nonfatal.2.1 (fun _ => none)
     (serverDataOpen ++ ('x' :: serverDataClose)) ['x'] (by decide) rfl,
   transcript_failures_nonfatal.2.2 emptyMetadata (Except.error "read failed")
     (fun _ => Except.ok ())⟩

theorem findVals_eq_firstSome (kvs : List (String × Json)) :
    findVals kvs = firstSome (kvs.map (fun kv => find_closed_captions_url kv.2)) := by
  induction kvs with
  | nil => rfl
  | cons kv rest ih =>
    rcases kv with ⟨k, v⟩
    cases h : find_closed_captions_url v with
    | none => simp [findVals, firstSome, h, ih]
    | some s => simp [findVals, firstSome, h]

theorem findElems_eq_firstSome (elems : List Json) :
    findElems elems = firstSome (elems.map find_closed_captions_url) := by
  induction elems with
  | nil => rfl
  | cons v rest ih =>
    cases h : find_closed_captions_url v with
    | none => simp [findElems, firstSome, h, ih]
    | some s => simp [findElems, firstSome, h]

theorem objHit_eq_some_iff (kvs : List (String × Json)) (s : String) :
    objHit kvs = some s ↔ specCaptionHit kvs s := by
  unfold objHit specCaptionHit
  cases hcc : kvs.lookup "closedCaptions" with
  | none => simp
  | some cc =>
    cases cc <;> simp [Json.get, Json.asStr]
    case obj cckvs =>
      cases hurl : cckvs.lookup "url" with
      | none => simp
      | some u => cases u <;> simp [Json.asStr]

/-- Claim C2: the transcript search is a depth-first traversal — an
object node first checks for a closedCaptions object with a string url
and returns it immediately, otherwise it recurses into the object
values in iteration order; an array node recurses into its elements in
order; scalar nodes yield no match; the first match wins; and on the
sample payload the search returns the sample transcript url. -/
theorem transcript_search_dfs :
    (∀ (kvs : List (String × Json)) (s : String), specCaptionHit kvs s →
      find_closed_captions_url (Json.obj kvs) = some s) ∧
    (∀ kvs, (∀ s, ¬ specCaptionHit kvs s) →
      find_closed_captions_url (Json.obj kvs) =
        firstSome (kvs.map (fun kv => find_closed_captions_url kv.2))) ∧
    (∀ elems, find_closed_captions_url (Json.arr elems) =
      firstSome (elems.map find_closed_captions_url)) ∧
    (find_closed_captions_url Json.null = none ∧
      (∀ b, find_closed_captions_url (Json.bool b) = none) ∧
      (∀ n, find_closed_captions_url (Json.num n) = none) ∧
      (∀ s, find_closed_captions_url (Json.str s) = none)) ∧
    find_closed_captions_url sampleServerData =
      some "https://example.com/transcript.ttml" := by
  refine ⟨?_, ?_, ?_, ⟨rfl, fun b => rfl, fun n => rfl, fun s => rfl⟩, by decide⟩
  · intro kvs s h
    have hh : objHit kvs = some s := (objHit_eq_some_iff kvs s).mpr h
    simp [find_closed_captions_url, hh]
  · intro kvs h
    have hh : objHit kvs = none := by
      cases ho : objHit kvs with
      | none => rfl
      | some s => exact absurd ((objHit_eq_some_iff kvs s).mp ho) (h s)
    simp [find_closed_captions_url, hh, findVals_eq_firstSome]
  · intro elems
    simp [find_closed_captions_url, findElems_eq_firstSome]

theorem transcript_search_dfs_witness :
    find_closed_captions_url
      (Json.obj [("closedCaptions", Json.obj [("url", Json.str "x")])]) = some "x" ∧
    find_closed_captions_url (Json.obj [("a", Json.null)]) =
      firstSome ([("a", Json.null)].map (fun kv => find_closed_captions_url kv.2)) :=
  ⟨transcript_search_dfs.1 [("closedCaptions", Json.obj [("url", Json.str "x")])] "x"
      ⟨[("url", Json.str "x")], rfl, rfl⟩,
   transcript_search_dfs.2.1 [("a", Json.null)]
      (by
        rintro s ⟨cckvs, hc, hu⟩
        simp [List.lookup] at hc)⟩

section

attribute [local irreducible] clean_text

set_option maxHeartbeats 2000000 in
theorem scanMeta_cases (st : Metadata) (e : MetaElem) :
    scanMeta st e = st ∨
    (∃ c, e.content = some c ∧ st.episode_title = "" ∧
      scanMeta st e = { st with episode_title := clean_text c }) ∨
    (∃ c, e.content = some c ∧ st.description = "" ∧
      scanMeta st e = { st with description := clean_text c }) ∨
    (∃ c, e.content = some c ∧ st.show_title = "" ∧
      scanMeta st e = { st with show_title := clean_text c }) ∨
    (∃ c, e.content = some c ∧ st.publish_date = "" ∧
      scanMeta st e = { st with publish_date := clean_text c }) := by
  rcases e with ⟨p, n, i, ct⟩
  rcases p with _ | p <;> rcases n with _ | n <;> rcases i with _ | i <;>
    rcases ct with _ | c <;> simp only [scanMeta] <;> (try split_ifs) <;>
    first
      | exact Or.inl trivial
      | exact Or.inl rfl
      | exact Or.inr (Or.inl ⟨c, rfl, by assumption, rfl⟩)
      | exact Or.inr (Or.inr (Or.inl ⟨c, rfl, by assumption, rfl⟩))
      | exact Or.inr (Or.inr (Or.inr (Or.inl ⟨c, rfl, by assumption, rfl⟩)))
      | exact Or.inr (Or.inr (Or.inr (Or.inr ⟨c, rfl, by assumption, rfl⟩)))

theorem scanMeta_preserves_nonempty (st : Metadata) (e : MetaElem) :
    (st.episode_title ≠ "" → (scanMeta st e).episode_title = st.episode_title) ∧
    (st.description ≠ "" → (scanMeta st e).description = st.description) ∧
    (st.show_title ≠ "" → (scanMeta st e).show_title = st.show_title) ∧
    (st.publish_date ≠ "" → (scanMeta st e).publish_date = st.publish_date) := by
  refine ⟨fun h => ?_, fun h => ?_, fun h => ?_, fun h => ?_⟩ <;>
    (rcases scanMeta_cases st e with hc | ⟨c, hct, hg, hc⟩ | ⟨c, hct, hg, hc⟩ |
        ⟨c, hct, hg, hc⟩ | ⟨c, hct, hg, hc⟩ <;>
      rw [hc] <;>
      first
        | rfl
        | exact absurd hg h)

theorem scanMeta_writes_cleaned (st : Metadata) (e : MetaElem) :
    ((scanMeta st e).episode_title = st.episode_title ∨
      ∃ c, e.content = some c ∧ (scanMeta st e).episode_title = clean_text c) ∧
    ((scanMeta st e).description = st.description ∨
      ∃ c, e.content = some c ∧ (scanMeta st e).description = clean_text c) ∧
    ((scanMeta st e).show_title = st.show_title ∨
      ∃ c, e.content = some c ∧ (scanMeta st e).show_title = clean_text c) ∧
    ((scanMeta st e).publish_date = st.publish_date ∨
      ∃ c, e.content = some c ∧ (scanMeta st e).publish_date = clean_text c) := by
  refine ⟨?_, ?_, ?_, ?_⟩ <;>
    (rcases scanMeta_cases st e with hc | ⟨c, hct, hg, hc⟩ | ⟨c, hct, hg, hc⟩ |
        ⟨c, hct, hg, hc⟩ | ⟨c, hct, hg, hc⟩ <;>
      rw [hc] <;>
      first
        | (left; rfl)
        | (right; exact ⟨c, hct, rfl⟩))

end

theorem foldl_scanMeta_keeps_episode_title (ms : List MetaElem) :
    ∀ st : Metadata, st.episode_title ≠ "" →
      (ms.foldl scanMeta st).episode_title = st.episode_title := by
  induction ms with
  | nil => intro st _; rfl
  | cons e rest ih =>
    intro st h
    have hp := (scanMeta_preserves_nonempty st e).1 h
    have hne : (scanMeta st e).episode_title ≠ "" := by rw [hp]; exact h
    simp only [List.foldl_cons]
    rw [ih _ hne, hp]

theorem foldl_scanMeta_keeps_description (ms : List MetaElem) :
    ∀ st : Metadata, st.description ≠ "" →
      (ms.foldl scanMeta st).description = st.description := by
  induction ms with
  | nil => intro st _; rfl
  | cons e rest ih =>
    intro st h
    have hp := (scanMeta_preserves_nonempty st e).2.1 h
    have hne : (scanMeta st e).description ≠ "" := by rw [hp]; exact h
    simp only [List.foldl_cons]
    rw [ih _ hne, hp]

theorem foldl_scanMeta_keeps_show_title (ms : List MetaElem) :
    ∀ st : Metadata, st.show_title ≠ "" →
      (ms.foldl scanMeta st).show_title = st.show_title := by
  induction ms with
  | nil => intro st _; rfl
  | cons e rest ih =>
    intro st h
    have hp := (scanMeta_preserves_nonempty st e).2.2.1 h
    have hne : (scanMeta st e).show_title ≠ "" := by rw [hp]; exact h
    simp only [List.foldl_cons]
    rw [ih _ hne, hp]

theorem foldl_scanMeta_keeps_publish_date (ms : List MetaElem) :
    ∀ st : Metadata, st.publish_date ≠ "" →
      (ms.foldl scanMeta st).publish_date = st.publish_date := by
  induction ms with
  | nil => intro st _; rfl
  | cons e rest ih =>
    intro st h
    have hp := (scanMeta_preserves_nonempty st e).2.2.2 h
    have hne : (scanMeta st e).publish_date ≠ "" := by rw [hp]; exact h
    simp only [List.foldl_cons]
    rw [ih _ hne, hp]

theorem foldl_scanMeta_episode_title_cleaned (ms : List MetaElem) :
    ∀ st : Metadata, (ms.foldl scanMeta st).episode_title = st.episode_title ∨
      ∃ e ∈ ms, ∃ c, e.content = some c ∧
        (ms.foldl scanMeta st).episode_title = clean_text c := by
  induction ms with
  | nil => intro st; left; rfl
  | cons e rest ih =>
    intro st
    simp only [List.foldl_cons]
    rcases ih (scanMeta st e) with h | ⟨f, hf, c, hc, hres⟩
    · rcases (scanMeta_writes_cleaned st e).1 with h2 | ⟨c, hc, h2⟩
      · left; rw [h, h2]
      · right; exact ⟨e, by simp, c, hc, by rw [h, h2]⟩
    · right; exact ⟨f, by simp [hf], c, hc, hres⟩

theorem foldl_scanMeta_description_cleaned (ms : List MetaElem) :
    ∀ st : Metadata, (ms.foldl scanMeta st).description = st.description ∨
      ∃ e ∈ ms, ∃ c, e.content = some c ∧
        (ms.foldl scanMeta st).description = clean_text c := by
  induction ms with
  | nil => intro st; left; rfl
  | cons e rest ih =>
    intro st
    simp only [List.foldl_cons]
    rcases ih (scanMeta st e) with h | ⟨f, hf, c, hc, hres⟩
    · rcases (scanMeta_writes_cleaned st e).2.1 with h2 | ⟨c, hc, h2⟩
      · left; rw [h, h2]
      · right; exact ⟨e, by simp, c, hc, by rw [h, h2]⟩
    · right; exact ⟨f, by simp [hf], c, hc, hres⟩

theorem foldl_scanMeta_show_title_cleaned (ms : List MetaElem) :
    ∀ st : Metadata, (ms.foldl scanMeta st).show_title = st.show_title ∨
      ∃ e ∈ ms, ∃ c, e.content = some c ∧
        (ms.foldl scanMeta st).show_title = clean_text c := by
  induction ms with
  | nil => intro st; left; rfl
  | cons e rest ih =>
    intro st
    simp only [List.foldl_cons]
    rcases ih (scanMeta st e) with h | ⟨f, hf, c, hc, hres⟩
    · rcases (scanMeta_writes_cleaned st e).2.2.1 with h2 | ⟨c, hc, h2⟩
      · left; rw [h, h2]
      · right; exact ⟨e, by simp, c, hc, by rw [h, h2]⟩
    · right; exact ⟨f, by simp [hf], c, hc, hres⟩

theorem foldl_scanMeta_publish_date_cleaned (ms : List MetaElem) :
    ∀ st : Metadata, (ms.foldl scanMeta st).publish_date = st.publish_date ∨
      ∃ e ∈ ms, ∃ c, e.content = some c ∧
        (ms.foldl scanMeta st).publish_date = clean_text c := by
  induction ms with
  | nil => intro st; left; rfl
  | cons e rest ih =>
    intro st
    simp only [List.foldl_cons]
    rcases ih (scanMeta st e) with h | ⟨f, hf, c, hc, hres⟩
    · rcases (scanMeta_writes_cleaned st e).2.2.2 with h2 | ⟨c, hc, h2⟩
      · left; rw [h, h2]
      · right; exact ⟨e, by simp, c, hc, by rw [h, h2]⟩
    · right; exact ⟨f, by simp [hf], c, hc, hres⟩

/-- Claim C7: the fallback scan is first-write-wins for every field —
from any state in which a field is already nonempty, folding any further
meta elements leaves that field unchanged, regardless of attribute
family — and every value the scan stores is the clean_text of some
element content: after the fold each field either still holds its
starting value or equals clean_text of the content of some scanned
element. -/
theorem meta_scan_first_write_wins (ms : List MetaElem) (st : Metadata) :
    ((st.episode_title ≠ "" →
        (ms.foldl scanMeta st).episode_title = st.episode_title) ∧
      (st.description ≠ "" →
        (ms.foldl scanMeta st).description = st.description) ∧
      (st.show_title ≠ "" →
        (ms.foldl scanMeta st).show_title = st.show_title) ∧
      (st.publish_date ≠ "" →
        (ms.foldl scanMeta st).publish_date = st.publish_date)) ∧
    (((ms.foldl scanMeta st).episode_title = st.episode_title ∨
        ∃ e ∈ ms, ∃ c, e.content = some c ∧
          (ms.foldl scanMeta st).episode_title = clean_text c) ∧
      ((ms.foldl scanMeta st).description = st.description ∨
        ∃ e ∈ ms, ∃ c, e.content = some c ∧
          (ms.foldl scanMeta st).description = clean_text c) ∧
      ((ms.foldl scanMeta st).show_title = st.show_title ∨
        ∃ e ∈ ms, ∃ c, e.content = some c ∧
          (ms.foldl scanMeta st).show_title = clean_text c) ∧
      ((ms.foldl scanMeta st).publish_date = st.publish_date ∨
        ∃ e ∈ ms, ∃ c, e.content = some c ∧
          (ms.foldl scanMeta st).publish_date = clean_text c)) :=
  ⟨⟨foldl_scanMeta_keeps_episode_title ms st,
    foldl_scanMeta_keeps_description ms st,
    foldl_scanMeta_keeps_show_title ms st,
    foldl_scanMeta_keeps_publish_date ms st⟩,
   foldl_scanMeta_episode_title_cleaned ms st,
   foldl_scanMeta_description_cleaned ms st,
   foldl_scanMeta_show_title_cleaned ms st,
   foldl_scanMeta_publish_date_cleaned ms st⟩

theorem meta_scan_first_write_wins_witness :
    (List.foldl scanMeta (⟨"t", "d", "s", "p"⟩ : Metadata)
      [⟨some "og:title", none, none, some "zzz"⟩]).episode_title = "t" :=
  (meta_scan_first_write_wins [⟨some "og:title", none, none, some "zzz"⟩]
    ⟨"t", "d", "s", "p"⟩).1.1 (by decide)

/-- Claim C8: after the full scan the three other fields are taken from
the scan unchanged, a nonempty show_title is kept, and an empty
show_title is recovered only from the first og:description element —
its content split on the literal delimiter yields show_title as the
trimmed second part when there are at least two parts, and show_title
stays empty when there are fewer than two parts, when the element has no
content, or when no og:description element exists. -/
theorem show_title_recovery (document : Document) :
    ∃ m, extract_from_meta_tags document = Except.ok m ∧
      m.episode_title = (document.metas.foldl scanMeta emptyMetadata).episode_title ∧
      m.description = (document.metas.foldl scanMeta emptyMetadata).description ∧
      m.publish_date = (document.metas.foldl scanMeta emptyMetadata).publish_date ∧
      ((document.metas.foldl scanMeta emptyMetadata).show_title ≠ "" →
        m.show_title = (document.metas.foldl scanMeta emptyMetadata).show_title) ∧
      ((document.metas.foldl scanMeta emptyMetadata).show_title = "" →
        (document.metas.find? (fun e => e.property == some "og:description") = none →
          m.show_title = "") ∧
        (∀ e, document.metas.find? (fun e => e.property == some "og:description") = some e →
          (e.content = none → m.show_title = "") ∧
          (∀ c, e.content = some c →
            (2 ≤ (splitOnDelim c.data).length →
              m.show_title = String.mk (trimChars ((splitOnDelim c.data).getD 1 []))) ∧
            ((splitOnDelim c.data).length < 2 → m.show_title = "")))) := by
  refine ⟨_, rfl, ?_, ?_, ?_, ?_, ?_⟩
  · simp [extract_from_meta_tags]
  · simp [extract_from_meta_tags]
  · simp [extract_from_meta_tags]
  · intro hne
    simp [extract_from_meta_tags, hne]
  · intro hempty
    constructor
    · intro hfind
      simp [extract_from_meta_tags, hempty, hfind]
    · intro e hfind
      constructor
      · intro hct
        simp [extract_from_meta_tags, hempty, hfind, hct]
      · intro c hct
        constructor
        · intro hlen
          simp [extract_from_meta_tags, hempty, hfind, hct, hlen]
        · intro hlen
          simp [extract_from_meta_tags, hempty, hfind, hct, Nat.not_le.mpr hlen]

theorem show_title_recovery_witness :
    ∃ m, extract_from_meta_tags
        ⟨none, [⟨some "og:description", none, none,
          some "Podcast Episode · Show Name · Date"⟩]⟩ = Except.ok m ∧
      m.show_title = "Show Name" := by
  obtain ⟨m, hm, _, _, _, _, hrec⟩ := show_title_recovery
    ⟨none, [⟨some "og:description", none, none,
      some "Podcast Episode · Show Name · Date"⟩]⟩
  refine ⟨m, hm, ?_⟩
  have hempty : (List.foldl scanMeta emptyMetadata
      [⟨some "og:description", none, none,
        some "Podcast Episode · Show Name · Date"⟩]).show_title = "" := by
    decide
  have h := ((((hrec hempty).2
      ⟨some "og:description", none, none,
        some "Podcast Episode · Show Name · Date"⟩ (by decide)).2
      "Podcast Episode · Show Name · Date" rfl).1)
  have hsplit : splitOnDelim "Podcast Episode · Show Name · Date".data =
      ["Podcast Episode".data, "Show Name".data, "Date".data] := by
    simp [splitOnDelim, splitAtSub, leadsWith, delimChars]
  have hlen : 2 ≤ (splitOnDelim "Podcast Episode · Show Name · Date".data).length := by
    rw [hsplit]; decide
  rw [h hlen, hsplit]
  decide

theorem splitScheme_eq (sch : List Char) (t : List Char) (h : ∀ c ∈ sch, c ≠ ':') :
    splitScheme (sch ++ ':' :: t) = some (sch, t) := by
  induction sch with
  | nil => simp [splitScheme]
  | cons c cs ih =>
    have hc : c ≠ ':' := h c (by simp)
    have ih2 := ih (fun d hd => h d (by simp [hd]))
    simp [splitScheme, hc, ih2]

theorem hostChar_not_delim (c : Char) (h : (c.isAlphanum || c = '.' || c = '-') = true) :
    hostDelim c = false := by
  by_cases h1 : c = '/'
  · subst h1; exact absurd h (by decide)
  · by_cases h2 : c = '?'
    · subst h2; exact absurd h (by decide)
    · by_cases h3 : c = '#'
      · subst h3; exact absurd h (by decide)
      · simp [hostDelim, h1, h2, h3]

/-- Claim C3: every string the modelled URL grammar rejects (those
lacking a scheme://host shape, the empty string among them) makes
validate_url fail with a message embedding the original string verbatim,
and every well-formed http or https absolute URL makes validate_url
succeed. -/
theorem url_validator_contract (s : String) :
    (url_parse_ok s = false →
      ∃ pre post, validate_url s = Except.error (pre ++ s ++ post)) ∧
    (wellFormedHttpUrl s → validate_url s = Except.ok ()) := by
  constructor
  · intro h
    exact ⟨"Invalid URL format: \x27", "\x27", by simp [validate_url, h]⟩
  · rintro ⟨scheme, host, rest, hs, hdata, hne, hall⟩
    have hok : url_parse_ok s = true := by
      have hnc : ∀ c ∈ scheme.data, c ≠ ':' := by
        rcases hs with h1 | h1 <;> subst h1 <;> decide
      unfold url_parse_ok
      rw [hdata, splitScheme_eq scheme.data _ hnc]
      rcases host with _ | ⟨h0, hrest⟩
      · exact absurd rfl hne
      · have hd : hostDelim h0 = false := by
          apply hostChar_not_delim
          simpa using (List.all_eq_true.mp hall h0 (by simp))
        rcases hs with h1 | h1 <;> subst h1 <;>
          simp [List.cons_append, List.takeWhile_cons, hd] <;> decide
    simp [validate_url, hok]

theorem url_validator_contract_witness :
    (∃ pre post, validate_url "" = Except.error (pre ++ "" ++ post)) ∧
    validate_url "http://example.com" = Except.ok () :=
  ⟨(url_validator_contract "").1 (by decide),
   (url_validator_contract "http://example.com").2
     ⟨"http", "example.com".data, [], Or.inl rfl, by decide, by decide, by decide⟩⟩

theorem words_cons_ws (c : Char) (cs : List Char) (hc : c.isWhitespace = true) :
    words (c :: cs) = words cs := by
  simp [words, hc]

theorem words_one (c : Char) (hc : c.isWhitespace = false) :
    words [c] = [[c]] := by
  simp [words, hc]

theorem words_cons_cons_ws (c d : Char) (tail : List Char)
    (hc : c.isWhitespace = false) (hd : d.isWhitespace = true) :
    words (c :: d :: tail) = [c] :: words (d :: tail) := by
  simp [words, hc, hd]

theorem words_cons_cons_nonws (c d : Char) (tail : List Char)
    (hc : c.isWhitespace = false) (hd : d.isWhitespace = false) :
    words (c :: d :: tail) =
      match words (d :: tail) with
      | [] => [[c]]
      | w :: ws => (c :: w) :: ws := by
  simp [words, hc, hd]

theorem words_sound (cs : List Char) :
    ∀ w ∈ words cs, w ≠ [] ∧ ∀ c ∈ w, c.isWhitespace = false := by
  induction cs using words.induct with
  | case1 => simp [words]
  | case2 c cs hc ih =>
    intro w hw
    rw [words_cons_ws c cs (by simpa using hc)] at hw
    exact ih w hw
  | case3 c hc =>
    intro w hw
    rw [words_one c (by simpa using hc)] at hw
    simp at hw
    subst hw
    refine ⟨by simp, ?_⟩
    intro x hx
    simp at hx
    subst hx
    simpa using hc
  | case4 c hc d tail hd ih =>
    intro w hw
    rw [words_cons_cons_ws c d tail (by simpa using hc) (by simpa using hd)] at hw
    rcases List.mem_cons.mp hw with h1 | h1
    · subst h1
      refine ⟨by simp, ?_⟩
      intro x hx
      simp at hx
      subst hx
      simpa using hc
    · exact ih w h1
  | case5 c hc d tail hd hnil ih =>
    intro w hw
    rw [words_cons_cons_nonws c d tail (by simpa using hc) (by simpa using hd),
      hnil] at hw
    simp at hw
    subst hw
    refine ⟨by simp, ?_⟩
    intro x hx
    simp at hx
    subst hx
    simpa using hc
  | case6 c hc d tail hd w0 ws0 hcons ih =>
    intro w hw
    rw [words_cons_cons_nonws c d tail (by simpa using hc) (by simpa using hd),
      hcons] at hw
    rcases List.mem_cons.mp hw with h1 | h1
    · subst h1
      have hw0 := ih w0 (by simp [hcons])
      refine ⟨by simp, ?_⟩
      intro x hx
      rcases List.mem_cons.mp hx with h2 | h2
      · subst h2; simpa using hc
      · exact hw0.2 x h2
    · exact ih w (by simp [hcons, h1])

theorem words_single (w : List Char) (hne : w ≠ [])
    (hnw : ∀ c ∈ w, c.isWhitespace = false) : words w = [w] := by
  induction w with
  | nil => exact absurd rfl hne
  | cons c w ih =>
    have hc : c.isWhitespace = false := hnw c (by simp)
    cases w with
    | nil => exact words_one c hc
    | cons d w2 =>
      have hd : d.isWhitespace = false := hnw d (by simp)
      have ih2 := ih (by simp) (fun x hx => hnw x (by simp [hx]))
      rw [words_cons_cons_nonws c d w2 hc hd, ih2]

theorem words_append (w t : List Char) (hne : w ≠ [])
    (hnw : ∀ c ∈ w, c.isWhitespace = false) :
    words (w ++ ' ' :: t) = w :: words t := by
  induction w with
  | nil => exact absurd rfl hne
  | cons c w ih =>
    have hc : c.isWhitespace = false := hnw c (by simp)
    cases w with
    | nil =>
      rw [List.cons_append, List.nil_append,
        words_cons_cons_ws c ' ' t hc (by decide),
        words_cons_ws ' ' t (by decide)]
    | cons d w2 =>
      have hd : d.isWhitespace = false := hnw d (by simp)
      have ih2 := ih (by simp) (fun x hx => hnw x (by simp [hx]))
      simp only [List.cons_append] at ih2 ⊢
      rw [words_cons_cons_nonws c d (w2 ++ ' ' :: t) hc hd, ih2]

theorem words_joinWords (ws : List (List Char))
    (h : ∀ w ∈ ws, w ≠ [] ∧ ∀ c ∈ w, c.isWhitespace = false) :
    words (joinWords ws) = ws := by
  induction ws with
  | nil => rfl
  | cons w vs ih =>
    cases vs with
    | nil =>
      have hw := h w (by simp)
      simp [joinWords, words_single w hw.1 hw.2]
    | cons v vs2 =>
      have hw := h w (by simp)
      have ih2 := ih (fun x hx => h x (by simp [hx]))
      simp [joinWords, words_append w _ hw.1 hw.2, ih2]

theorem removeTags_nil : removeTags [] = [] := by
  simp [removeTags]

theorem removeTags_cons_open (cs rest : List Char) (h : dropToGt cs = some rest) :
    removeTags ('<' :: cs) = removeTags rest := by
  simp only [removeTags]
  split
  · split <;> simp_all
  · simp_all

theorem removeTags_cons_open_none (cs : List Char) (h : dropToGt cs = none) :
    removeTags ('<' :: cs) = '<' :: cs := by
  simp only [removeTags]
  split
  · split <;> simp_all
  · simp_all

theorem removeTags_cons (c : Char) (cs : List Char) (hc : c ≠ '<') :
    removeTags (c :: cs) = c :: removeTags cs := by
  simp only [removeTags, if_neg hc]

theorem removeTags_id_of_noRemovable (cs : List Char)
    (h : noRemovable cs = true) : removeTags cs = cs := by
  induction cs with
  | nil => exact removeTags_nil
  | cons c cs ih =>
    by_cases hc : c = '<'
    · subst hc
      have hnone : dropToGt cs = none := by
        simpa [noRemovable, Option.isNone_iff_eq_none] using h
      exact removeTags_cons_open_none cs hnone
    · have h2 : noRemovable cs = true := by simpa [noRemovable, hc] using h
      rw [removeTags_cons c cs hc, ih h2]

theorem noRemovable_removeTags (cs : List Char) :
    noRemovable (removeTags cs) = true := by
  induction cs using removeTags.induct with
  | case1 => rw [removeTags_nil]; rfl
  | case2 cs rest hdrop ih =>
    rw [removeTags_cons_open cs rest hdrop]
    exact ih
  | case3 cs hdrop =>
    rw [removeTags_cons_open_none cs hdrop]
    simp [noRemovable, hdrop]
  | case4 c cs hc ih =>
    rw [removeTags_cons c cs hc]
    simpa [noRemovable, hc] using ih

theorem dropToGt_isNone (l : List Char) :
    (dropToGt l).isNone = !(l.contains '>') := by
  induction l with
  | nil => rfl
  | cons c cs ih =>
    by_cases hc : c = '>'
    · subst hc; simp [dropToGt, List.contains_cons]
    · simp [dropToGt, hc, List.contains_cons, ih, Ne.symm hc]

theorem contains_filter_isAngle (l : List Char) :
    (l.filter isAngle).contains '>' = l.contains '>' := by
  induction l with
  | nil => rfl
  | cons c cs ih =>
    by_cases hc : isAngle c = true
    · rw [List.filter_cons_of_pos hc]
      simp [List.contains_cons, ih, (by decide : isAngle '>' = true)]
    · have hne : c ≠ '>' := by
        intro h; subst h; simp [isAngle] at hc
      rw [List.filter_cons_of_neg (by simpa using hc)]
      simp [List.contains_cons, ih, hne, Ne.symm hne,
        (by decide : isAngle '>' = true)]

theorem ws_not_angle (c : Char) (h : c.isWhitespace = true) : isAngle c = false := by
  by_cases h1 : c = '<'
  · subst h1; exact absurd h (by decide)
  · by_cases h2 : c = '>'
    · subst h2; exact absurd h (by decide)
    · simp [isAngle, h1, h2]

theorem noRemovable_filter (cs : List Char) :
    noRemovable cs = noRemovable (cs.filter isAngle) := by
  induction cs with
  | nil => rfl
  | cons c cs ih =>
    by_cases hc : c = '<'
    · subst hc
      rw [List.filter_cons_of_pos (by simp [isAngle])]
      simp only [noRemovable, if_pos rfl]
      rw [dropToGt_isNone, dropToGt_isNone, contains_filter_isAngle]
      simp
    · by_cases ha : isAngle c = true
      · rw [List.filter_cons_of_pos ha]
        simp only [noRemovable, if_neg hc]
        exact ih
      · rw [List.filter_cons_of_neg (by simpa using ha)]
        simp only [noRemovable, if_neg hc]
        exact ih

theorem filter_joinWords_cons (w : List Char) (vs : List (List Char)) :
    (joinWords (w :: vs)).filter isAngle =
      w.filter isAngle ++ (joinWords vs).filter isAngle := by
  cases vs with
  | nil => simp [joinWords]
  | cons v vs2 =>
    simp [joinWords, List.filter_append, List.filter_cons]
    simp [isAngle]

theorem filter_angle_ws_norm (cs : List Char) :
    (joinWords (words cs)).filter isAngle = cs.filter isAngle := by
  induction cs using words.induct with
  | case1 => rfl
  | case2 c cs hc ih =>
    have ha : isAngle c = false := ws_not_angle c (by simpa using hc)
    rw [words_cons_ws c cs (by simpa using hc)]
    rw [List.filter_cons_of_neg (by simp [ha]), ih]
  | case3 c hc =>
    rw [words_one c (by simpa using hc)]
    simp [joinWords]
  | case4 c hc d tail hd ih =>
    rw [words_cons_cons_ws c d tail (by simpa using hc) (by simpa using hd)]
    rw [filter_joinWords_cons, ih]
    by_cases ha : isAngle c = true <;> simp [ha, List.filter_cons]
  | case5 c hc d tail hd hnil ih =>
    rw [words_cons_cons_nonws c d tail (by simpa using hc) (by simpa using hd), hnil]
    rw [hnil] at ih
    simp only [joinWords, List.filter_nil] at ih
    simp [joinWords, List.filter_cons, ← ih]
  | case6 c hc d tail hd w0 ws0 hcons ih =>
    rw [words_cons_cons_nonws c d tail (by simpa using hc) (by simpa using hd), hcons]
    rw [hcons, filter_joinWords_cons] at ih
    rw [filter_joinWords_cons, List.filter_cons, List.filter_cons]
    by_cases ha : isAngle c = true
    · simp [ha, List.cons_append, ih]
    · simp [ha, ih]

theorem noRemovable_ws_norm (cs : List Char) (h : noRemovable cs = true) :
    noRemovable (joinWords (words cs)) = true := by
  rw [noRemovable_filter, filter_angle_ws_norm, ← noRemovable_filter]
  exact h

theorem cleanTextData_idem (cs : List Char) :
    cleanTextData (cleanTextData cs) = cleanTextData cs := by
  unfold cleanTextData
  rw [removeTags_id_of_noRemovable _ (noRemovable_ws_norm _ (noRemovable_removeTags cs))]
  rw [words_joinWords _ (words_sound (removeTags cs))]

theorem removeTags_no_open (cs : List Char) (h : ∀ c ∈ cs, c ≠ '<') :
    removeTags cs = cs := by
  induction cs with
  | nil => exact removeTags_nil
  | cons c cs ih =>
    have hc : c ≠ '<' := h c (by simp)
    rw [removeTags_cons c cs hc, ih (fun x hx => h x (by simp [hx]))]

theorem leadsWith_append (pat u v : List Char) (h : leadsWith pat u = true) :
    leadsWith pat (u ++ v) = true := by
  induction pat generalizing u with
  | nil => rfl
  | cons p ps ih =>
    cases u with
    | nil => simp [leadsWith] at h
    | cons c cs =>
      simp only [leadsWith, Bool.and_eq_true] at h ⊢
      exact ⟨h.1, ih cs h.2⟩

theorem leadsWith_refl (pat : List Char) : leadsWith pat pat = true := by
  induction pat with
  | nil => rfl
  | cons p ps ih => simp [leadsWith, ih]

theorem leadsWith_decomp (pat l : List Char) (h : leadsWith pat l = true) :
    l = pat ++ l.drop pat.length := by
  induction pat generalizing l with
  | nil => simp
  | cons p ps ih =>
    cases l with
    | nil => simp [leadsWith] at h
    | cons c cs =>
      simp only [leadsWith, Bool.and_eq_true, decide_eq_true_eq] at h
      obtain ⟨h1, h2⟩ := h
      subst h1
      simpa using ih cs h2

theorem splitAtSub_decomp (pat l pre rest : List Char)
    (h : splitAtSub pat l = some (pre, rest)) :
    l = pre ++ pat ++ rest := by
  induction l generalizing pre with
  | nil =>
    by_cases hp : pat = []
    · subst hp
      simp [splitAtSub] at h
      simp_all
    · simp [splitAtSub, hp] at h
  | cons c cs ih =>
    by_cases hl : leadsWith pat (c :: cs) = true
    · simp only [splitAtSub, if_pos hl, Option.some.injEq, Prod.mk.injEq] at h
      obtain ⟨h1, h2⟩ := h
      subst h1
      subst h2
      simpa using leadsWith_decomp pat (c :: cs) hl
    · simp only [splitAtSub, if_neg hl] at h
      cases hsub : splitAtSub pat cs with
      | none => rw [hsub] at h; cases h
      | some pr =>
        rcases pr with ⟨p0, r0⟩
        rw [hsub] at h
        simp only [Option.some.injEq, Prod.mk.injEq] at h
        obtain ⟨h1, h2⟩ := h
        subst h2
        rw [← h1]
        simpa using congrArg (fun l => c :: l) (ih p0 hsub)

theorem splitAtSub_extend (pat u v p1 r1 : List Char)
    (h : splitAtSub pat u = some (p1, r1)) :
    splitAtSub pat (u ++ v) ≠ none := by
  induction u generalizing p1 r1 with
  | nil =>
    by_cases hp : pat = []
    · subst hp
      cases v with
      | nil => simp [splitAtSub]
      | cons c cs => simp [splitAtSub, leadsWith]
    · simp [splitAtSub, hp] at h
  | cons c cs ih =>
    by_cases hl : leadsWith pat (c :: cs) = true
    · have hl2 : leadsWith pat (c :: (cs ++ v)) = true := by
        have := leadsWith_append pat (c :: cs) v hl
        simpa using this
      simp only [List.cons_append, splitAtSub]
      simp [hl2]
    · simp only [splitAtSub, if_neg hl] at h
      cases hsub : splitAtSub pat cs with
      | none => rw [hsub] at h; cases h
      | some pr =>
        rcases pr with ⟨p0, r0⟩
        have ihn := ih p0 r0 hsub
        simp only [List.cons_append, splitAtSub]
        by_cases hl2 : leadsWith pat (c :: (cs ++ v)) = true
        · simp [hl2]
        · cases hsub2 : splitAtSub pat (cs ++ v) with
          | none => exact absurd hsub2 ihn
          | some pr2 =>
            rcases pr2 with ⟨p2, r2⟩
            simp [hl2, hsub2]

theorem splitAtSub_pre_none (pat l pre rest : List Char) (hp : pat ≠ [])
    (h : splitAtSub pat l = some (pre, rest)) :
    splitAtSub pat pre = none := by
  induction l generalizing pre with
  | nil =>
    simp [splitAtSub, hp] at h
  | cons c cs ih =>
    by_cases hl : leadsWith pat (c :: cs) = true
    · simp only [splitAtSub, if_pos hl, Option.some.injEq, Prod.mk.injEq] at h
      obtain ⟨h1, _⟩ := h
      subst h1
      cases pat with
      | nil => exact absurd rfl hp
      | cons a as => simp [splitAtSub]
    · simp only [splitAtSub, if_neg hl] at h
      cases hsub : splitAtSub pat cs with
      | none => rw [hsub] at h; cases h
      | some pr =>
        rcases pr with ⟨p0, r0⟩
        rw [hsub] at h
        simp only [Option.some.injEq, Prod.mk.injEq] at h
        obtain ⟨h1, h2⟩ := h
        subst h2
        rw [← h1]
        have ihn := ih p0 hsub
        by_cases hl2 : leadsWith pat (c :: p0) = true
        · exfalso
          apply hl
          have hdec := splitAtSub_decomp pat cs p0 r0 hsub
          have hx : c :: cs = (c :: p0) ++ (pat ++ r0) := by
            rw [hdec]; simp [List.append_assoc]
          rw [hx]
          exact leadsWith_append pat (c :: p0) (pat ++ r0) hl2
        · simp [splitAtSub, hl2, ihn]

theorem takeWhile_append_of_bad (p : Char → Bool) (u v : List Char)
    (h : ∃ x ∈ u, p x = false) :
    (u ++ v).takeWhile p = u.takeWhile p := by
  induction u with
  | nil => obtain ⟨x, hx, _⟩ := h; simp at hx
  | cons c u0 ih =>
    by_cases hc : p c = true
    · obtain ⟨x, hx, hpx⟩ := h
      have hxu : x ∈ u0 := by
        rcases List.mem_cons.mp hx with h1 | h1
        · subst h1; rw [hc] at hpx; cases hpx
        · exact h1
      simp only [List.cons_append, List.takeWhile_cons, hc, if_pos]
      rw [ih ⟨x, hxu, hpx⟩]
    · have hc2 : p c = false := by simpa using hc
      simp [List.takeWhile_cons, hc2]

theorem leadsWith_open_false (c : Char) (cs : List Char) (hc : c ≠ '<') :
    leadsWith serverDataOpen (c :: cs) = false := by
  have hopen : serverDataOpen = '<' :: serverDataOpen.tail := by decide
  rw [hopen]
  simp only [leadsWith, Bool.and_eq_false_iff]
  left
  simpa using Ne.symm hc

theorem splitAtSub_open_none_append (u t : List Char)
    (hu : ∀ c ∈ u, c ≠ '<')
    (ht : splitAtSub serverDataOpen t = none) :
    splitAtSub serverDataOpen (u ++ t) = none := by
  induction u with
  | nil => simpa using ht
  | cons c u0 ih =>
    have hc : c ≠ '<' := hu c (by simp)
    have ih2 := ih (fun x hx => hu x (by simp [hx]))
    simp only [List.cons_append, splitAtSub]
    rw [if_neg (by simp [leadsWith_open_false c (u0 ++ t) hc])]
    have ih3 : splitAtSub serverDataOpen (u0.append t) = none := ih2
    rw [ih3]

theorem re_captures_none_of_no_open (l : List Char)
    (h : splitAtSub serverDataOpen l = none) : re_captures l = none := by
  induction l with
  | nil => rfl
  | cons c cs ih =>
    by_cases hl : leadsWith serverDataOpen (c :: cs) = true
    · exfalso
      simp only [splitAtSub, if_pos hl] at h
      cases h
    · have h2 : splitAtSub serverDataOpen cs = none := by
        simp only [splitAtSub, if_neg hl] at h
        cases hsub : splitAtSub serverDataOpen cs with
        | none => rfl
        | some pr => rw [hsub] at h; rcases pr with ⟨a, b⟩; cases h
      simp only [re_captures, if_neg hl]
      exact ih h2

theorem re_captures_none_newline (doc : List Char) :
    ∀ pre tail mid rest,
      splitAtSub serverDataOpen doc = some (pre, tail) →
      splitAtSub serverDataOpen tail = none →
      splitAtSub serverDataClose tail = some (mid, rest) →
      '\n' ∈ mid →
      re_captures doc = none := by
  induction doc with
  | nil =>
    intro pre tail mid rest h _ _ _
    rw [show splitAtSub serverDataOpen [] = none by decide] at h
    cases h
  | cons c cs ih =>
    intro pre tail mid rest hopen honce hclose hnl
    by_cases hl : leadsWith serverDataOpen (c :: cs) = true
    · simp only [splitAtSub, if_pos hl, Option.some.injEq, Prod.mk.injEq] at hopen
      obtain ⟨hpre, htail⟩ := hopen
      -- the captured line stops before the newline inside mid
      have hdecomp : tail = mid ++ serverDataClose ++ rest :=
        splitAtSub_decomp serverDataClose tail mid rest hclose
      have hline : tail.takeWhile (fun ch => ch ≠ '\n') =
          mid.takeWhile (fun ch => ch ≠ '\n') := by
        rw [hdecomp, List.append_assoc]
        exact takeWhile_append_of_bad _ mid _ ⟨'\n', hnl, by simp⟩
      have hmid_none : splitAtSub serverDataClose mid = none :=
        splitAtSub_pre_none serverDataClose tail mid rest (by decide) hclose
      have hline_none :
          splitAtSub serverDataClose (tail.takeWhile (fun ch => ch ≠ '\n')) = none := by
        cases hsub : splitAtSub serverDataClose
            (tail.takeWhile (fun ch => ch ≠ '\n')) with
        | none => rfl
        | some pr =>
          exfalso
          rcases pr with ⟨p1, r1⟩
          rw [hline] at hsub
          have hext := splitAtSub_extend serverDataClose
            (mid.takeWhile (fun ch => ch ≠ '\n'))
            (mid.dropWhile (fun ch => ch ≠ '\n')) p1 r1 hsub
          rw [List.takeWhile_append_dropWhile] at hext
          exact hext hmid_none
      -- the scan fails here and continues after the opening bracket
      have hcs : cs = serverDataOpen.tail ++ tail := by
        have hdec := leadsWith_decomp serverDataOpen (c :: cs) hl
        have hopen2 : serverDataOpen = '<' :: serverDataOpen.tail := by decide
        rw [← htail]
        nth_rewrite 1 [hopen2] at hdec
        rw [List.cons_append] at hdec
        injection hdec with h1 h2
      have hcs_none : re_captures cs = none := by
        apply re_captures_none_of_no_open
        rw [hcs]
        exact splitAtSub_open_none_append _ _ (by decide) honce
      simp only [re_captures, if_pos hl]
      rw [← htail] at hline_none
      simp only [hline_none]
      exact hcs_none
    · simp only [splitAtSub, if_neg hl] at hopen
      have : re_captures cs = none := by
        cases hsub : splitAtSub serverDataOpen cs with
        | none => rw [hsub] at hopen; cases hopen
        | some pr =>
          rcases pr with ⟨p0, t0⟩
          rw [hsub] at hopen
          simp only [Option.some.injEq, Prod.mk.injEq] at hopen
          obtain ⟨h1, h2⟩ := hopen
          subst h2
          exact ih p0 t0 mid rest hsub honce hclose hnl
      simp only [re_captures, if_neg hl]
      exact this

theorem re_captures_no_newline (d : List Char) :
    ∀ cap, re_captures d = some cap → '\n' ∉ cap := by
  induction d with
  | nil => intro cap h; cases h
  | cons c cs ih =>
    intro cap h
    by_cases hl : leadsWith serverDataOpen (c :: cs) = true
    · simp only [re_captures, if_pos hl] at h
      cases hsub : splitAtSub serverDataClose
          (((c :: cs).drop serverDataOpen.length).takeWhile (fun ch => ch ≠ '\n')) with
      | none =>
        rw [hsub] at h
        exact ih cap h
      | some pr =>
        rcases pr with ⟨cap0, r0⟩
        rw [hsub] at h
        simp only [Option.some.injEq] at h
        subst h
        intro hmem
        have hdec := splitAtSub_decomp serverDataClose _ cap0 r0 hsub
        have hmem2 : '\n' ∈ ((c :: cs).drop serverDataOpen.length).takeWhile
            (fun ch => ch ≠ '\n') := by
          rw [hdec]
          simp [hmem]
        have := List.mem_takeWhile_imp hmem2
        simp at this
    · simp only [re_captures, if_neg hl] at h
      exact ih cap h


/-- Claim C4: the text normalizer is idempotent — applying clean_text to
already-cleaned text returns it unchanged. -/
theorem clean_text_idempotent (s : String) :
    clean_text (clean_text s) = clean_text s := by
  unfold clean_text
  exact congrArg String.mk (cleanTextData_idem s.data)

/-- Claim C5 counterexample: the string with a doubled space contains no
tag markup, yet clean_text collapses the whitespace and returns a
different string. -/
theorem clean_text_changes_untagged_input :
    (∀ c ∈ "a  b".data, c ≠ '<') ∧ clean_text "a  b" ≠ "a  b" := by
  constructor
  · decide
  · have h1 : removeTags "a  b".data = "a  b".data :=
      removeTags_no_open _ (by decide)
    have h2 : clean_text "a  b" = "a b" := by
      unfold clean_text cleanTextData
      rw [h1]
      decide
    rw [h2]
    decide

/-- Claim C5 amended: for input containing no tag markup the tag-removal
pass leaves the text unchanged, so clean_text returns exactly the
whitespace-normalized text, and returns the original unmodified
precisely when the original is already whitespace-normalized. -/
theorem clean_text_no_tags (s : String) (h : ∀ c ∈ s.data, c ≠ '<') :
    removeTags s.data = s.data ∧
    clean_text s = String.mk (joinWords (words s.data)) ∧
    (joinWords (words s.data) = s.data → clean_text s = s) := by
  have h1 : removeTags s.data = s.data := removeTags_no_open s.data h
  refine ⟨h1, ?_, ?_⟩
  · unfold clean_text cleanTextData
    rw [h1]
  · intro hnorm
    unfold clean_text cleanTextData
    rw [h1, hnorm]

theorem clean_text_no_tags_witness : clean_text "a b" = "a b" :=
  (clean_text_no_tags "a b" (by decide)).2.2 (by decide)

/-- Claim C10: the transcript locator only ever finds a transcript in a
payload sitting entirely on one line — when the text between the
serialized-server-data opening tag and its closing script tag contains a
newline, the regex finds no match and find_transcript_url returns Ok
none; and any capture the regex does produce is newline-free. -/
theorem transcript_regex_single_line :
    (∀ doc pre tail mid rest,
      splitAtSub serverDataOpen doc = some (pre, tail) →
      splitAtSub serverDataOpen tail = none →
      splitAtSub serverDataClose tail = some (mid, rest) →
      '\n' ∈ mid →
      re_captures doc = none ∧
      ∀ parseJson, find_transcript_url parseJson doc = Except.ok none) ∧
    (∀ d cap, re_captures d = some cap → '\n' ∉ cap) := by
  constructor
  · intro doc pre tail mid rest hopen honce hclose hnl
    have hnone := re_captures_none_newline doc pre tail mid rest hopen honce hclose hnl
    exact ⟨hnone, fun parseJson => by simp [find_transcript_url, hnone]⟩
  · exact re_captures_no_newline

theorem transcript_regex_single_line_witness :
    re_captures (serverDataOpen ++ ('x' :: '\n' :: 'y' :: serverDataClose)) = none ∧
    find_transcript_url (fun _ => none)
      (serverDataOpen ++ ('x' :: '\n' :: 'y' :: serverDataClose)) = Except.ok none ∧
    '\n' ∉ ['[', ']'] := by
  have h := transcript_regex_single_line.1
    (serverDataOpen ++ ('x' :: '\n' :: 'y' :: serverDataClose))
    [] ('x' :: '\n' :: 'y' :: serverDataClose)
    ['x', '\n', 'y'] []
    (by decide) (by decide) (by decide) (by decide)
  exact ⟨h.1, h.2 (fun _ => none),
    transcript_regex_single_line.2
      (serverDataOpen ++ ('[' :: ']' :: serverDataClose)) ['[', ']'] (by decide)⟩
